import Mathlib

/-!
Shallow embedding of the `crypto_wallet_simulator` ledger engine.

Python dictionaries (`utxo_set`, `signatures`) are modelled as
insertion-ordered association lists, matching CPython dict semantics:
lookup finds the unique binding, inserting an existing key updates it in
place, inserting a fresh key appends at the end, and `dict.values()`
enumerates in insertion order.  SHA-256 is abstracted as a parameter
`H : String → String` (the `hexdigest` form) and `Hd : String → String`
(the raw `digest` form used for signatures); every claim below holds for
all choices of these functions.  Python `float` amounts are modelled as
exact rationals `ℚ`; the textual rendering of an amount inside a hash
pre-image is abstracted by `pyFloatStr`, which only ever feeds the
abstract hash.
-/

namespace CryptoSim

/-- Lookup in an association list, mirroring `d.get(k)` / `d[k]`. -/
def alistLookup {V : Type} : List (String × V) → String → Option V
  | [], _ => none
  | p :: rest, k => if p.1 = k then some p.2 else alistLookup rest k

/-- Lookup in a `Nat`-keyed association list (the `signatures` dict). -/
def natLookup {V : Type} : List (Nat × V) → Nat → Option V
  | [], _ => none
  | p :: rest, k => if p.1 = k then some p.2 else natLookup rest k

/-- `d[k] = v` on a Python dict: update in place if present, else append. -/
def alistInsert {V : Type} : List (String × V) → String → V → List (String × V)
  | [], k, v => [(k, v)]
  | p :: rest, k, v => if p.1 = k then (k, v) :: rest else p :: alistInsert rest k v

/-- `d[k] = v` on a `Nat`-keyed Python dict. -/
def natInsert {V : Type} : List (Nat × V) → Nat → V → List (Nat × V)
  | [], k, v => [(k, v)]
  | p :: rest, k, v => if p.1 = k then (k, v) :: rest else p :: natInsert rest k v

/-- `if k in d: del d[k]` — since dict keys are unique, deletion is a filter. -/
def alistRemove {V : Type} (l : List (String × V)) (k : String) : List (String × V) :=
  l.filter (fun p => decide (p.1 ≠ k))

/-- Python `s.startswith(pre)`, as a character-list prefix test (kernel
computable, unlike the byte-position based library routine). -/
def strStartsWith (s pre : String) : Bool :=
  pre.data.isPrefixOf s.data

/-- Python `f"{x}"` applied to an `Optional[str]`: `None` prints as `"None"`. -/
def pyOptStr : Option String → String
  | none => "None"
  | some s => s

/-- Rendering of a (rational-modelled) Python float inside a hash pre-image. -/
def pyFloatStr (q : ℚ) : String := toString q

/-- `domain/model.py` — `Address`: value-compared wrapper of a hash string. -/
structure Address where
  hash : String
deriving DecidableEq

/-- `domain/model.py` — `UTXO`. -/
structure UTXO where
  tx_id : String
  output_index : Nat
  amount : ℚ
  owner_address : Address
  lock_script : Option String := none
deriving DecidableEq

/-- The store key `f"{tx_id}:{output_index}"` of a UTXO. -/
def utxoKey (u : UTXO) : String := u.tx_id ++ ":" ++ toString u.output_index

/-- `domain/model.py` — `TxIn`. -/
structure TxIn where
  prev_tx_id : String
  output_index : Nat
  signature_script : Option String := none
deriving DecidableEq

/-- `TxIn.reference_key`: `f"{prev_tx_id}:{output_index}"`. -/
def TxIn.reference_key (i : TxIn) : String :=
  i.prev_tx_id ++ ":" ++ toString i.output_index

/-- `domain/model.py` — `TxOut`. -/
structure TxOut where
  amount : ℚ
  address : Address
  lock_script : Option String := none
deriving DecidableEq

/-- `domain/model.py` — `Transaction`; `signatures` is a `Nat`-keyed dict of
raw digests (modelled as the abstract digest strings). -/
structure Transaction where
  tx_id : Option String
  inputs : List TxIn
  outputs : List TxOut
  signatures : List (Nat × String) := []
deriving DecidableEq

/-- `Transaction.calculate_hash`: sha256 over reference keys then
`f"{amount}:{address.hash}"` parts joined by `"|"`. -/
def Transaction.calculate_hash (H : String → String) (tx : Transaction) : String :=
  let parts := tx.inputs.map (fun i => i.prev_tx_id ++ ":" ++ toString i.output_index)
    ++ tx.outputs.map (fun o => pyFloatStr o.amount ++ ":" ++ o.address.hash)
  H (String.intercalate "|" parts)

/-- The loop body of `Transaction.verify`, indexed over `enumerate(inputs)`:
missing signature, failed lookup, or a digest mismatch returns `false`. -/
def verifyFrom (Hd : String → String) (sigs : List (Nat × String))
    (key_lookup : TxIn → Option String) (tx_hash : String) :
    Nat → List TxIn → Bool
  | _, [] => true
  | idx, inp :: rest =>
    match natLookup sigs idx with
    | none => false
    | some sig =>
      match key_lookup inp with
      | none => false
      | some owner_priv =>
        if Hd (owner_priv ++ tx_hash) = sig then
          verifyFrom Hd sigs key_lookup tx_hash (idx + 1) rest
        else false

/-- `Transaction.verify`. -/
def Transaction.verify (H Hd : String → String) (tx : Transaction)
    (key_lookup : TxIn → Option String) : Bool :=
  verifyFrom Hd tx.signatures key_lookup (tx.calculate_hash H) 0 tx.inputs

/-- `Transaction.add_signature`. -/
def Transaction.add_signature (tx : Transaction) (input_index : Nat)
    (signature : String) : Transaction :=
  { tx with signatures := natInsert tx.signatures input_index signature }

/-- `domain/model.py` — `BlockHeader`. -/
structure BlockHeader where
  version : Int
  prev_hash : String
  merkle_root : String
  timestamp : Int
  nonce : Nat := 0
  difficulty : Int := 1
  validator_id : Option String := none
deriving DecidableEq

/-- `BlockHeader.calculate_hash`: sha256 of the colon-joined field string. -/
def BlockHeader.calculate_hash (H : String → String) (h : BlockHeader) : String :=
  H (toString h.version ++ ":" ++ h.prev_hash ++ ":" ++ h.merkle_root ++ ":" ++
     toString h.timestamp ++ ":" ++ toString h.nonce ++ ":" ++
     toString h.difficulty ++ ":" ++ pyOptStr h.validator_id)

/-- `domain/model.py` — `Block`. -/
structure Block where
  header : BlockHeader
  transactions : List Transaction := []
deriving DecidableEq

/-- One pairing pass: hash the concatenation of adjacent elements.  It is only
ever applied to even-length levels (after padding). -/
def pairHash (H : String → String) : List String → List String
  | a :: b :: rest => H (a ++ b) :: pairHash H rest
  | _ => []

/-- The odd-count padding step: `tx_hashes.append(tx_hashes[-1])`. -/
def padEven (l : List String) : List String :=
  if l.length % 2 = 1 then
    match l.getLast? with
    | some x => l ++ [x]
    | none => l
  else l

/-- The `while len(tx_hashes) > 1` loop; `l.length` iterations always suffice
(proved below), so the fuel never runs out on the lists the code builds. -/
def merkleIter (H : String → String) : Nat → List String → List String
  | 0, l => l
  | k + 1, l => if l.length ≤ 1 then l else merkleIter H k (pairHash H (padEven l))

/-- `Block.calculate_merkle_root`. -/
def Block.calculate_merkle_root (H : String → String) (b : Block) : String :=
  if b.transactions.isEmpty then H ""
  else
    let tx_hashes := b.transactions.map (Transaction.calculate_hash H)
    match merkleIter H tx_hashes.length tx_hashes with
    | x :: _ => x
    | [] => ""

/-- `adapters/persistence.py` — `InMemoryLedgerRepository`. -/
structure InMemoryLedgerRepository where
  blocks : List Block := []
  utxo_set : List (String × UTXO) := []
deriving DecidableEq

/-- `get_block`: `self.blocks[height]` guarded by `0 <= height < len`. -/
def InMemoryLedgerRepository.get_block (repo : InMemoryLedgerRepository)
    (height : Int) : Option Block :=
  if 0 ≤ height ∧ height < (repo.blocks.length : Int) then
    repo.blocks.get? height.toNat
  else none

/-- `get_latest_block`: `self.blocks[-1]`, or `None` when empty. -/
def InMemoryLedgerRepository.get_latest_block (repo : InMemoryLedgerRepository) :
    Option Block :=
  repo.blocks.getLast?

/-- `add_block`: unconditional append. -/
def InMemoryLedgerRepository.add_block (repo : InMemoryLedgerRepository)
    (block : Block) : InMemoryLedgerRepository :=
  { repo with blocks := repo.blocks ++ [block] }

/-- `get_utxo`: lookup under the composite key `f"{tx_id}:{index}"`. -/
def InMemoryLedgerRepository.get_utxo (repo : InMemoryLedgerRepository)
    (tx_id : String) (index : Nat) : Option UTXO :=
  alistLookup repo.utxo_set (tx_id ++ ":" ++ toString index)

/-- `add_utxo`: upsert under the UTXO's own key. -/
def InMemoryLedgerRepository.add_utxo (repo : InMemoryLedgerRepository)
    (utxo : UTXO) : InMemoryLedgerRepository :=
  { repo with utxo_set := alistInsert repo.utxo_set (utxoKey utxo) utxo }

/-- `remove_utxo`: delete if present, silently keep the store otherwise. -/
def InMemoryLedgerRepository.remove_utxo (repo : InMemoryLedgerRepository)
    (utxo_key : String) : InMemoryLedgerRepository :=
  { repo with utxo_set := alistRemove repo.utxo_set utxo_key }

/-- `all_utxos`: `list(self.utxo_set.values())`, in insertion order. -/
def InMemoryLedgerRepository.all_utxos (repo : InMemoryLedgerRepository) :
    List UTXO :=
  repo.utxo_set.map Prod.snd

/-- The digest recomputed at each nonce by the proof-of-work loop:
sha256 of `f"{prev_hash}{merkle_root}{nonce}{timestamp}"`. -/
def powDigest (H : String → String) (header : BlockHeader) (nonce : Nat) : String :=
  H (header.prev_hash ++ header.merkle_root ++ toString nonce ++
     toString header.timestamp)

/-- The target `'0' * max(1, difficulty)` of `ProofOfWorkAdapter.mine`. -/
def powTarget (difficulty : Int) : String :=
  String.mk (List.replicate (max 1 difficulty).toNat '0')

/-- The unbounded `while True` nonce search, given fuel; `none` means the fuel
ran out before a qualifying nonce was found (the Python loop would simply
still be running). -/
def mineFrom (H : String → String) (target : String) (header : BlockHeader) :
    Nat → Nat → Option (Nat × String)
  | 0, _ => none
  | fuel + 1, nonce =>
    let h := powDigest H header nonce
    if strStartsWith h target then some (nonce, h)
    else mineFrom H target header fuel (nonce + 1)

/-- `adapters/consensus.py` — `ProofOfWorkAdapter.mine`: on success the winning
nonce is written into the header and the digest returned. -/
def ProofOfWorkAdapter.mine (H : String → String) (difficulty : Int)
    (header : BlockHeader) (fuel : Nat) : Option (BlockHeader × String) :=
  match mineFrom H (powTarget difficulty) header fuel 0 with
  | some (n, h) => some ({ header with nonce := n }, h)
  | none => none

/-- `domain/exceptions.py` — the payload of `InsufficientFundsException`
(the derived human-readable message is omitted). -/
structure InsufficientFundsException where
  address : Address
  required : ℚ
  available : ℚ
deriving DecidableEq

/-- The sender-filtered UTXO list of `create_transaction`:
`[u for u in repo.all_utxos() if u.owner_address == from_address]`. -/
def senderUtxos (repo : InMemoryLedgerRepository) (from_address : Address) :
    List UTXO :=
  repo.all_utxos.filter (fun u => decide (u.owner_address = from_address))

/-- `sum(o.amount for o in outputs)`. -/
def sumOutputs (outputs : List TxOut) : ℚ :=
  outputs.foldl (fun a o => a + o.amount) 0

/-- The accumulation loop of `create_transaction`: append an input for each
UTXO, add its amount to the running total, and break once the total reaches
the requirement.  Returns the inputs gathered and the final total. -/
def greedyCollect (required : ℚ) : List UTXO → ℚ → List TxIn × ℚ
  | [], total => ([], total)
  | u :: rest, total =>
    let total2 := total + u.amount
    if required ≤ total2 then ([⟨u.tx_id, u.output_index, none⟩], total2)
    else
      let r := greedyCollect required rest total2
      (⟨u.tx_id, u.output_index, none⟩ :: r.1, r.2)

/-- `service_layer/services.py` — `TransactionService.create_transaction`. -/
def TransactionService.create_transaction (H : String → String)
    (repo : InMemoryLedgerRepository) (from_address : Address)
    (outputs : List TxOut) : Except InsufficientFundsException Transaction :=
  let utxos := senderUtxos repo from_address
  if utxos.isEmpty then
    Except.error ⟨from_address, sumOutputs outputs, 0⟩
  else
    let c := greedyCollect (sumOutputs outputs) utxos 0
    if c.2 < sumOutputs outputs then
      Except.error ⟨from_address, sumOutputs outputs, c.2⟩
    else
      let tx : Transaction := ⟨none, c.1, outputs, []⟩
      Except.ok { tx with tx_id := some (tx.calculate_hash H) }

/-- `TransactionService.sign_transaction`: one signature per input index,
each the digest of `wallet_priv + tx_hash`, overwriting prior entries. -/
def TransactionService.sign_transaction (H Hd : String → String)
    (wallet_priv : String) (tx : Transaction) : Transaction :=
  let tx_hash := tx.calculate_hash H
  (List.range tx.inputs.length).foldl
    (fun t idx => t.add_signature idx (Hd (wallet_priv ++ tx_hash))) tx

/-- `TransactionService.verify_transaction` delegates to `Transaction.verify`
(the `try/except` wrapper only matters for effectful lookups, which the pure
model cannot express). -/
def TransactionService.verify_transaction (H Hd : String → String)
    (tx : Transaction) (key_lookup : TxIn → Option String) : Bool :=
  tx.verify H Hd key_lookup

/-- The per-transaction UTXO update of `MiningService.mine_block`: remove each
input's referenced key, then add one UTXO per output, keyed by the
transaction's id and the output's position. -/
def applyTxUtxos (repo : InMemoryLedgerRepository) (tx : Transaction) :
    InMemoryLedgerRepository :=
  let afterRemove :=
    tx.inputs.foldl (fun r inp => r.remove_utxo inp.reference_key) repo
  tx.outputs.enum.foldl
    (fun r p => r.add_utxo ⟨pyOptStr tx.tx_id, p.1, p.2.amount, p.2.address, none⟩)
    afterRemove

/-- The per-transaction UTXO-set delta, at the level of the raw dict:
the same removals and additions `applyTxUtxos` performs through the store. -/
def txUtxoDelta (tx : Transaction) (us : List (String × UTXO)) :
    List (String × UTXO) :=
  let removed := tx.inputs.foldl (fun s inp => alistRemove s inp.reference_key) us
  tx.outputs.enum.foldl
    (fun s p => alistInsert s (pyOptStr tx.tx_id ++ ":" ++ toString p.1)
      ⟨pyOptStr tx.tx_id, p.1, p.2.amount, p.2.address, none⟩)
    removed

/-- The zero-filled genesis-parent placeholder `"0" * 64`. -/
def zeroPrevHash : String := String.mk (List.replicate 64 '0')

/-- The `prev_hash` chosen by `mine_block`: hash of the latest block's header,
or the zero-filled placeholder when the store is empty. -/
def minePrevHash (H : String → String) (repo : InMemoryLedgerRepository) :
    String :=
  match repo.get_latest_block with
  | some prev => prev.header.calculate_hash H
  | none => zeroPrevHash

/-- The candidate header `mine_block` builds before sealing: version 1, blank
Merkle root then filled from the supplied transactions, nonce 0. -/
def mineCandidateHeader (H : String → String) (difficulty : Int)
    (repo : InMemoryLedgerRepository) (transactions : List Transaction)
    (validator : String) (timestamp : Int) : BlockHeader :=
  let header : BlockHeader :=
    ⟨1, minePrevHash H repo, "", timestamp, 0, difficulty, some validator⟩
  { header with
    merkle_root := Block.calculate_merkle_root H ⟨header, transactions⟩ }

/-- `service_layer/services.py` — `MiningService.mine_block`.  The wall-clock
timestamp and the proof-of-work difficulty (read from the adapter) are
explicit parameters; `fuel` bounds the otherwise unbounded sealing search, and
`none` means the search was still running at that bound. -/
def MiningService.mine_block (H : String → String) (difficulty : Int)
    (fuel : Nat) (repo : InMemoryLedgerRepository)
    (transactions : List Transaction) (validator : String) (timestamp : Int) :
    Option (InMemoryLedgerRepository × Block) :=
  match ProofOfWorkAdapter.mine H difficulty
      (mineCandidateHeader H difficulty repo transactions validator timestamp)
      fuel with
  | none => none
  | some (sealed, _) =>
    let block : Block := ⟨sealed, transactions⟩
    some (transactions.foldl applyTxUtxos (repo.add_block block), block)

/-- Adjacent pairing of a level, as the spec words it ("pair adjacent
elements"); a trailing unpaired element cannot occur after padding. -/
def specPairs : List String → List (String × String)
  | a :: b :: rest => (a, b) :: specPairs rest
  | _ => []

/-- One level step of the spec's Merkle algorithm: duplicate the last element
when the count is odd, then hash each adjacent pair's concatenation
(left + right, no separator). -/
def specLevel (H : String → String) (l : List String) : List String :=
  let padded := if l.length % 2 = 1 then l ++ l.getLast?.toList else l
  (specPairs padded).map (fun p => H (p.1 ++ p.2))

/-- Iterate the spec's level step until one element remains; `none` records
that the given number of repetitions did not reach a single element. -/
def specRootIter (H : String → String) : Nat → List String → Option String
  | _, [x] => some x
  | 0, _ => none
  | fuel + 1, l => specRootIter H fuel (specLevel H l)

/-- The Merkle root exactly as §4.2 of the spec states it, over the ordered
transaction-hash list: hash of the empty byte string for the empty list,
otherwise repeat the level step until one element remains. -/
def merkleRootSpec (H : String → String) (hashes : List String) : Option String :=
  if hashes = [] then some (H "") else specRootIter H hashes.length hashes

/-- Total amount of a UTXO list (used to state the available-funds facts). -/
def sumU : List UTXO → ℚ
  | [] => 0
  | u :: rest => u.amount + sumU rest

/-- The TxIn built from a consumed UTXO by `create_transaction`. -/
def utxoToTxIn (u : UTXO) : TxIn := ⟨u.tx_id, u.output_index, none⟩

/-- Concrete fixture: a live 100-unit UTXO for the conservation scenario. -/
def wUtxo : UTXO := ⟨"g", 0, 100, ⟨"o"⟩, none⟩

/-- Concrete fixture: the transaction spending `wUtxo` into 60 and 40. -/
def wTx : Transaction :=
  ⟨some "t", [⟨"g", 0, none⟩], [⟨60, ⟨"p"⟩, none⟩, ⟨40, ⟨"q"⟩, none⟩], []⟩

/-- Concrete fixture: a store holding only `wUtxo`. -/
def wRepo : InMemoryLedgerRepository := ⟨[], [("g:0", wUtxo)]⟩

/-- Concrete fixture: the block mined from `wRepo` over `[wTx]` with the
constant hash `fun _ => "0"`, difficulty 1, timestamp 0. -/
def wBlock : Block := ⟨⟨1, zeroPrevHash, "0", 0, 0, 1, some "v"⟩, [wTx]⟩

/-- Concrete fixture: the store state after that mining step. -/
def wRepo2 : InMemoryLedgerRepository :=
  ⟨[wBlock],
    [("t:0", ⟨"t", 0, 60, ⟨"p"⟩, none⟩), ("t:1", ⟨"t", 1, 40, ⟨"q"⟩, none⟩)]⟩

/-- Concrete fixture: a store already holding one block. -/
def wBlockOne : Block := ⟨⟨1, "x", "m", 5, 0, 1, none⟩, []⟩

/-- Concrete fixture: the one-block store for the chain-linkage scenario. -/
def wRepoOne : InMemoryLedgerRepository := ⟨[wBlockOne], []⟩

/-- Concrete fixture: the second block mined on top of `wBlockOne` with the
constant hash `fun _ => "0"`, difficulty 1, timestamp 9. -/
def wBlockTwo : Block := ⟨⟨1, "0", "0", 9, 0, 1, some "v"⟩, []⟩

/-! ## Association-list (Python dict) lemmas -/

theorem alistLookup_eq_none_iff {V : Type} {l : List (String × V)} {k : String} :
    alistLookup l k = none ↔ ∀ p ∈ l, p.1 ≠ k := by
  induction l with
  | nil => simp [alistLookup]
  | cons p rest ih =>
    by_cases h : p.1 = k
    · simp [alistLookup, h]
    · simp [alistLookup, h, ih]

theorem alistRemove_absent {V : Type} {l : List (String × V)} {k : String}
    (h : alistLookup l k = none) : alistRemove l k = l := by
  rw [alistRemove]
  refine List.filter_eq_self.mpr ?_
  intro p hp
  simpa using alistLookup_eq_none_iff.mp h p hp

theorem alistRemove_idem {V : Type} (l : List (String × V)) (k : String) :
    alistRemove (alistRemove l k) k = alistRemove l k := by
  simp [alistRemove]

theorem alistRemove_cons_hit {V : Type} (p : String × V) (rest : List (String × V))
    (k : String) (h : p.1 = k) : alistRemove (p :: rest) k = alistRemove rest k := by
  simp [alistRemove, List.filter, h]

theorem alistRemove_cons_miss {V : Type} (p : String × V) (rest : List (String × V))
    (k : String) (h : ¬p.1 = k) :
    alistRemove (p :: rest) k = p :: alistRemove rest k := by
  simp [alistRemove, List.filter, h]

theorem alistLookup_remove {V : Type} (l : List (String × V)) (k k' : String) :
    alistLookup (alistRemove l k) k' =
      if k' = k then none else alistLookup l k' := by
  induction l with
  | nil => simp [alistRemove, alistLookup]
  | cons p rest ih =>
    by_cases h : p.1 = k
    · rw [alistRemove_cons_hit p rest k h, ih]
      by_cases hk : k' = k
      · simp [hk]
      · have hpk : p.1 ≠ k' := fun e => hk (e.symm.trans h)
        simp [alistLookup, hk, hpk]
    · rw [alistRemove_cons_miss p rest k h]
      by_cases hp : p.1 = k'
      · have hk : ¬k' = k := fun e => h (hp.trans e)
        simp [alistLookup, hp, hk]
      · simp [alistLookup, hp, ih]

theorem alistLookup_insert_self {V : Type} (l : List (String × V)) (k : String)
    (v : V) : alistLookup (alistInsert l k v) k = some v := by
  induction l with
  | nil => simp [alistInsert, alistLookup]
  | cons p rest ih =>
    by_cases h : p.1 = k
    · simp [alistInsert, alistLookup, h]
    · simp [alistInsert, alistLookup, h, ih]

theorem alistLookup_insert_ne {V : Type} (l : List (String × V)) (k k' : String)
    (v : V) (h : k' ≠ k) :
    alistLookup (alistInsert l k v) k' = alistLookup l k' := by
  induction l with
  | nil => simp [alistInsert, alistLookup, Ne.symm h]
  | cons p rest ih =>
    by_cases hp : p.1 = k
    · simp [alistInsert, alistLookup, hp, Ne.symm h]
    · simp [alistInsert, alistLookup, hp, ih]

theorem alistInsert_fresh {V : Type} {l : List (String × V)} {k : String}
    (v : V) (h : alistLookup l k = none) : alistInsert l k v = l ++ [(k, v)] := by
  induction l with
  | nil => rfl
  | cons p rest ih =>
    have hp : p.1 ≠ k := alistLookup_eq_none_iff.mp h p (by simp)
    have hrest : alistLookup rest k = none := by
      refine alistLookup_eq_none_iff.mpr ?_
      intro q hq
      exact alistLookup_eq_none_iff.mp h q (by simp [hq])
    simp [alistInsert, hp, ih hrest]

theorem natLookup_insert_self {V : Type} (l : List (Nat × V)) (k : Nat) (v : V) :
    natLookup (natInsert l k v) k = some v := by
  induction l with
  | nil => simp [natInsert, natLookup]
  | cons p rest ih =>
    by_cases h : p.1 = k
    · simp [natInsert, natLookup, h]
    · simp [natInsert, natLookup, h, ih]

theorem natLookup_insert_ne {V : Type} (l : List (Nat × V)) (k k' : Nat) (v : V)
    (h : k' ≠ k) : natLookup (natInsert l k v) k' = natLookup l k' := by
  induction l with
  | nil => simp [natInsert, natLookup, Ne.symm h]
  | cons p rest ih =>
    by_cases hp : p.1 = k
    · simp [natInsert, natLookup, hp, Ne.symm h]
    · simp [natInsert, natLookup, hp, ih]

/-! ## Merkle-tree lemmas and claim C2 -/

theorem pairHash_length (H : String → String) :
    ∀ l : List String, (pairHash H l).length = l.length / 2
  | [] => rfl
  | [_] => by simp [pairHash]
  | a :: b :: rest => by
    simp only [pairHash, List.length_cons]
    rw [pairHash_length H rest]
    omega

theorem padEven_length (l : List String) :
    (padEven l).length = l.length + l.length % 2 := by
  unfold padEven
  by_cases h : l.length % 2 = 1
  · rw [if_pos h]
    cases hg : l.getLast? with
    | none =>
      have hnil : l = [] := List.getLast?_eq_none_iff.mp hg
      subst hnil
      simp at h
    | some x => simp [h]
  · rw [if_neg h]
    omega

theorem specPairs_map (H : String → String) :
    ∀ l : List String, (specPairs l).map (fun p => H (p.1 ++ p.2)) = pairHash H l
  | [] => rfl
  | [_] => rfl
  | a :: b :: rest => by
    simp only [specPairs, pairHash, List.map_cons]
    rw [specPairs_map H rest]

theorem specLevel_eq (H : String → String) (l : List String) :
    specLevel H l = pairHash H (padEven l) := by
  by_cases h : l.length % 2 = 1
  · cases hg : l.getLast? with
    | none =>
      have hnil : l = [] := List.getLast?_eq_none_iff.mp hg
      subst hnil
      simp at h
    | some x => simp [specLevel, padEven, h, hg, specPairs_map]
  · simp [specLevel, padEven, h, specPairs_map]

theorem merkleIter_correct (H : String → String) :
    ∀ (fuel : Nat) (l : List String), l ≠ [] → l.length ≤ fuel →
      ∃ x, merkleIter H fuel l = [x] ∧ specRootIter H fuel l = some x := by
  intro fuel
  induction fuel with
  | zero =>
    intro l hne hlen
    exact absurd (List.eq_nil_of_length_eq_zero (by omega)) hne
  | succ f ih =>
    intro l hne hlen
    match l with
    | [] => exact absurd rfl hne
    | [x] =>
      refine ⟨x, ?_, rfl⟩
      simp [merkleIter]
    | a :: b :: rest =>
      have hnextlen : (pairHash H (padEven (a :: b :: rest))).length <
          (a :: b :: rest).length := by
        rw [pairHash_length, padEven_length]
        simp only [List.length_cons]
        omega
      have hnextpos : 1 ≤ (pairHash H (padEven (a :: b :: rest))).length := by
        rw [pairHash_length, padEven_length]
        simp only [List.length_cons]
        omega
      have hnextne : pairHash H (padEven (a :: b :: rest)) ≠ [] := by
        intro e
        rw [e] at hnextpos
        simp at hnextpos
      have hlen2 : (a :: b :: rest).length ≤ f + 1 := hlen
      obtain ⟨x, hm, hs⟩ := ih (pairHash H (padEven (a :: b :: rest))) hnextne
        (by simp only [List.length_cons] at hlen2 ⊢; omega)
      refine ⟨x, ?_, ?_⟩
      · simp only [merkleIter]
        rw [if_neg (by simp only [List.length_cons]; omega)]
        exact hm
      · have hstep : specRootIter H (f + 1) (a :: b :: rest) =
            specRootIter H f (specLevel H (a :: b :: rest)) := rfl
        rw [hstep, specLevel_eq]
        exact hs

/-- C2: the Merkle root of a block equals the spec's §4.2 algorithm over its
ordered transaction-hash list — the hash of the empty byte string for the
empty list, otherwise repeated duplicate-last-if-odd / hash-adjacent-pairs
level steps until one element remains. -/
theorem claim_C2_merkle_root_matches_spec :
    ∀ (H : String → String) (b : Block),
      merkleRootSpec H (b.transactions.map (Transaction.calculate_hash H)) =
        some (b.calculate_merkle_root H) := by
  intro H b
  by_cases hb : b.transactions.isEmpty
  · have hnil : b.transactions = [] := List.isEmpty_iff.mp hb
    simp [merkleRootSpec, Block.calculate_merkle_root, hnil]
  · have hne : b.transactions ≠ [] := by
      intro e
      rw [e] at hb
      simp at hb
    have hmapne : b.transactions.map (Transaction.calculate_hash H) ≠ [] := by
      simp [hne]
    obtain ⟨x, hm, hs⟩ := merkleIter_correct H
      (b.transactions.map (Transaction.calculate_hash H)).length
      (b.transactions.map (Transaction.calculate_hash H)) hmapne le_rfl
    rw [merkleRootSpec, if_neg hmapne, hs]
    unfold Block.calculate_merkle_root
    rw [if_neg (by simpa using hb)]
    simp only [hm]

/-! ## Claim C8 — `remove_utxo` is idempotent and total -/

/-- C8: `remove_utxo` is a total function (no error path exists); removing an
absent key leaves the store unchanged, and removing the same key twice yields
the same store as removing it once. -/
theorem claim_C8_remove_utxo_idempotent :
    ∀ (repo : InMemoryLedgerRepository) (key : String),
      (alistLookup repo.utxo_set key = none → repo.remove_utxo key = repo) ∧
      (repo.remove_utxo key).remove_utxo key = repo.remove_utxo key := by
  intro repo key
  constructor
  · intro h
    cases repo with
    | mk blocks us =>
      simp [InMemoryLedgerRepository.remove_utxo, alistRemove_absent h]
  · simp [InMemoryLedgerRepository.remove_utxo, alistRemove_idem]

/-- Witness for C8 at a concrete store and absent key. -/
theorem claim_C8_witness :
    InMemoryLedgerRepository.remove_utxo
        ⟨[], [("a:0", ⟨"a", 0, 5, ⟨"x"⟩, none⟩)]⟩ "b:1" =
      ⟨[], [("a:0", ⟨"a", 0, 5, ⟨"x"⟩, none⟩)]⟩ :=
  (claim_C8_remove_utxo_idempotent ⟨[], [("a:0", ⟨"a", 0, 5, ⟨"x"⟩, none⟩)]⟩
    "b:1").1 (by decide)

/-! ## Claim C10 — `get_block` outside `[0, len)` returns `None` -/

/-- C10: for every store and every height outside `[0, number of blocks)`,
including every negative height, `get_block` returns `none`; negative heights
never wrap around to an existing block. -/
theorem claim_C10_get_block_out_of_range :
    ∀ (repo : InMemoryLedgerRepository) (height : Int),
      height < 0 ∨ (repo.blocks.length : Int) ≤ height →
      repo.get_block height = none := by
  intro repo height h
  unfold InMemoryLedgerRepository.get_block
  split
  · omega
  · rfl

/-- Witness for C10: a one-block store queried at height `-1` yields `none`. -/
theorem claim_C10_witness :
    InMemoryLedgerRepository.get_block
        ⟨[⟨⟨1, "p", "m", 0, 0, 1, none⟩, []⟩], []⟩ (-1) = none :=
  claim_C10_get_block_out_of_range ⟨[⟨⟨1, "p", "m", 0, 0, 1, none⟩, []⟩], []⟩
    (-1) (Or.inl (by decide))

/-! ## Proof-of-work lemmas and claims C4, C9 -/

theorem powTarget_of_one_le {d : Int} (h : 1 ≤ d) :
    powTarget d = String.mk (List.replicate d.toNat '0') := by
  rw [powTarget, max_eq_right h]

theorem powTarget_of_le_one {d : Int} (h : d ≤ 1) : powTarget d = powTarget 1 := by
  rw [powTarget, powTarget, max_eq_left h, max_self]

theorem mineFrom_sound (H : String → String) (target : String)
    (header : BlockHeader) :
    ∀ (fuel start n : Nat) (dig : String),
      mineFrom H target header fuel start = some (n, dig) →
      start ≤ n ∧ dig = powDigest H header n ∧
        strStartsWith (powDigest H header n) target = true ∧
        ∀ m, start ≤ m → m < n →
          strStartsWith (powDigest H header m) target = false := by
  intro fuel
  induction fuel with
  | zero =>
    intro start n dig h
    simp [mineFrom] at h
  | succ f ih =>
    intro start n dig h
    simp only [mineFrom] at h
    by_cases hs : strStartsWith (powDigest H header start) target = true
    · rw [if_pos hs] at h
      injection h with h2
      injection h2 with hn hd
      subst hn
      subst hd
      exact ⟨le_refl _, rfl, hs, fun m hm1 hm2 => absurd hm2 (by omega)⟩
    · rw [if_neg hs] at h
      obtain ⟨h1, h2, h3, h4⟩ := ih (start + 1) n dig h
      refine ⟨by omega, h2, h3, ?_⟩
      intro m hm1 hm2
      by_cases hm : m = start
      · subst hm
        exact (Bool.not_eq_true _).mp hs
      · exact h4 m (by omega) hm2

theorem pow_mine_shape (H : String → String) (d : Int) (header : BlockHeader)
    (fuel : Nat) (sealed : BlockHeader) (dig : String)
    (h : ProofOfWorkAdapter.mine H d header fuel = some (sealed, dig)) :
    ∃ n, mineFrom H (powTarget d) header fuel 0 = some (n, dig) ∧
      sealed = { header with nonce := n } := by
  unfold ProofOfWorkAdapter.mine at h
  cases hm : mineFrom H (powTarget d) header fuel 0 with
  | none => rw [hm] at h; cases h
  | some pr =>
    obtain ⟨n, g⟩ := pr
    rw [hm] at h
    refine ⟨n, ?_, ?_⟩
    · cases h; rfl
    · cases h; rfl

/-- C4: whenever the proof-of-work search returns at difficulty `d ≥ 1`, the
returned value is the digest over `prev_hash ++ merkle_root ++ nonce ++
timestamp` at the chosen nonce, that digest starts with `d` zero characters,
the chosen nonce is written into the header (all other fields kept), and it is
the smallest nonce from 0 whose digest meets the prefix condition. -/
theorem claim_C4_pow_mine_correct :
    ∀ (H : String → String) (d : Int) (header sealed : BlockHeader)
      (fuel : Nat) (dig : String),
      1 ≤ d →
      ProofOfWorkAdapter.mine H d header fuel = some (sealed, dig) →
      dig = powDigest H header sealed.nonce ∧
      strStartsWith dig (String.mk (List.replicate d.toNat '0')) = true ∧
      sealed = { header with nonce := sealed.nonce } ∧
      ∀ m, m < sealed.nonce →
        strStartsWith (powDigest H header m)
          (String.mk (List.replicate d.toNat '0')) = false := by
  intro H d header sealed fuel dig hd h
  obtain ⟨n, hmf, hsh⟩ := pow_mine_shape H d header fuel sealed dig h
  obtain ⟨h1, h2, h3, h4⟩ := mineFrom_sound H (powTarget d) header fuel 0 n dig hmf
  have hn : sealed.nonce = n := by rw [hsh]
  subst h2
  rw [← powTarget_of_one_le hd]
  refine ⟨?_, h3, ?_, ?_⟩
  · rw [hn]
  · rw [hn]
    exact hsh
  · intro m hm
    rw [hn] at hm
    exact h4 m (Nat.zero_le m) hm

/-- Witness for C4 under a concrete hash that immediately satisfies the
target: the prefix property of the returned digest is produced by the claim
theorem applied at the concrete search. -/
theorem claim_C4_witness :
    strStartsWith "0" (String.mk (List.replicate (1 : Int).toNat '0')) = true :=
  (claim_C4_pow_mine_correct (fun _ => "0") 1 ⟨1, "p", "m", 7, 0, 1, none⟩
    ⟨1, "p", "m", 7, 0, 1, none⟩ 1 "0" (by decide) (by decide)).2.1

/-- C9: for every difficulty `d ≤ 1` (including 0 and negatives) the
proof-of-work search behaves exactly as at difficulty 1, because the target is
`'0' * max(1, d)`; in particular the target at such `d` is the single
character `"0"`, so a difficulty-0 adapter does not accept an arbitrary first
digest. -/
theorem claim_C9_low_difficulty_acts_as_one :
    ∀ (H : String → String) (d : Int) (header : BlockHeader) (fuel : Nat),
      d ≤ 1 →
      ProofOfWorkAdapter.mine H d header fuel =
        ProofOfWorkAdapter.mine H 1 header fuel ∧
      powTarget d = String.mk ['0'] := by
  intro H d header fuel h
  constructor
  · unfold ProofOfWorkAdapter.mine
    rw [powTarget_of_le_one h]
  · rw [powTarget_of_le_one h]
    decide

/-- Witness for C9 at difficulty 0. -/
theorem claim_C9_witness :
    ProofOfWorkAdapter.mine (fun s => s) 0 ⟨1, "p", "m", 7, 0, 0, none⟩ 3 =
      ProofOfWorkAdapter.mine (fun s => s) 1 ⟨1, "p", "m", 7, 0, 0, none⟩ 3 :=
  (claim_C9_low_difficulty_acts_as_one (fun s => s) 0 ⟨1, "p", "m", 7, 0, 0, none⟩
    3 (by decide)).1

/-! ## Signing/verification lemmas and claims C3, C6 -/

theorem foldl_add_signature (v : String) :
    ∀ (idxs : List Nat) (tx : Transaction),
      idxs.foldl (fun t idx => t.add_signature idx v) tx =
        { tx with signatures :=
            idxs.foldl (fun s idx => natInsert s idx v) tx.signatures }
  | [], _ => rfl
  | i :: rest, tx => by
    simp only [List.foldl_cons]
    rw [foldl_add_signature v rest]
    rfl

theorem sign_transaction_eq (H Hd : String → String) (secret : String)
    (tx : Transaction) :
    TransactionService.sign_transaction H Hd secret tx =
      { tx with signatures := ((List.range tx.inputs.length).foldl
          (fun s idx => natInsert s idx (Hd (secret ++ tx.calculate_hash H)))
          tx.signatures) } := by
  simp only [TransactionService.sign_transaction]
  rw [foldl_add_signature]

theorem natLookup_range_foldl (v : String) :
    ∀ (n : Nat) (init : List (Nat × String)) (j : Nat), j < n →
      natLookup ((List.range n).foldl (fun s i => natInsert s i v) init) j =
        some v := by
  intro n
  induction n with
  | zero =>
    intro init j hj
    omega
  | succ m ih =>
    intro init j hj
    rw [List.range_succ, List.foldl_append]
    simp only [List.foldl_cons, List.foldl_nil]
    by_cases hjm : j = m
    · subst hjm
      exact natLookup_insert_self _ _ _
    · rw [natLookup_insert_ne _ _ _ _ hjm]
      exact ih init j (by omega)

theorem verifyFrom_all_good (Hd : String → String) (sigs : List (Nat × String))
    (lookup : TxIn → Option String) (txh secret : String) :
    ∀ (inps : List TxIn) (idx : Nat),
      (∀ j, j < inps.length →
        natLookup sigs (idx + j) = some (Hd (secret ++ txh))) →
      (∀ inp ∈ inps, lookup inp = some secret) →
      verifyFrom Hd sigs lookup txh idx inps = true
  | [], _ => fun _ _ => rfl
  | inp :: rest, idx => fun hsig hlook => by
    have h0 : natLookup sigs idx = some (Hd (secret ++ txh)) := by
      simpa using hsig 0 (by simp)
    have hl : lookup inp = some secret := hlook inp (by simp)
    simp only [verifyFrom, h0, hl]
    rw [if_pos trivial]
    refine verifyFrom_all_good Hd sigs lookup txh secret rest (idx + 1) ?_ ?_
    · intro j hj
      have := hsig (j + 1) (by simpa using Nat.succ_lt_succ hj)
      rwa [show idx + (j + 1) = idx + 1 + j by omega] at this
    · intro inp2 hmem
      exact hlook inp2 (by simp [hmem])

/-- C3: for every transaction and secret, immediately after
`sign_transaction(secret, tx)`, `verify_transaction(tx, lookup)` returns true
whenever `lookup` returns that same secret for every input of the
transaction. -/
theorem claim_C3_sign_then_verify :
    ∀ (H Hd : String → String) (secret : String) (tx : Transaction)
      (key_lookup : TxIn → Option String),
      (∀ inp ∈ tx.inputs, key_lookup inp = some secret) →
      TransactionService.verify_transaction H Hd
        (TransactionService.sign_transaction H Hd secret tx) key_lookup =
        true := by
  intro H Hd secret tx key_lookup hl
  unfold TransactionService.verify_transaction Transaction.verify
  rw [sign_transaction_eq]
  refine verifyFrom_all_good Hd _ key_lookup _ secret tx.inputs 0 ?_ hl
  intro j hj
  simpa using natLookup_range_foldl (Hd (secret ++ tx.calculate_hash H))
    tx.inputs.length tx.signatures j hj

/-- Witness for C3 at a concrete one-input transaction and constant lookup. -/
theorem claim_C3_witness :
    TransactionService.verify_transaction (fun s => "h" ++ s) (fun s => "d" ++ s)
      (TransactionService.sign_transaction (fun s => "h" ++ s)
        (fun s => "d" ++ s) "sec"
        ⟨none, [⟨"u", 0, none⟩], [⟨3, ⟨"a"⟩, none⟩], []⟩)
      (fun _ => some "sec") = true :=
  claim_C3_sign_then_verify (fun s => "h" ++ s) (fun s => "d" ++ s) "sec"
    ⟨none, [⟨"u", 0, none⟩], [⟨3, ⟨"a"⟩, none⟩], []⟩ (fun _ => some "sec")
    (by decide)

/-- C6 counterexample: a transaction whose two distinct input positions both
reference the same UTXO key (`"u:0"`), once fully signed, passes
`Transaction.verify` — no double-spend condition is signalled anywhere, so a
verified transaction can contain duplicate input references. -/
theorem claim_C6_counterexample :
    Transaction.verify (fun s => "h" ++ s) (fun s => "d" ++ s)
        (TransactionService.sign_transaction (fun s => "h" ++ s)
          (fun s => "d" ++ s) "sec"
          ⟨some "t", [⟨"u", 0, none⟩, ⟨"u", 0, none⟩], [⟨1, ⟨"a"⟩, none⟩], []⟩)
        (fun _ => some "sec") = true ∧
    (TransactionService.sign_transaction (fun s => "h" ++ s)
        (fun s => "d" ++ s) "sec"
        ⟨some "t", [⟨"u", 0, none⟩, ⟨"u", 0, none⟩], [⟨1, ⟨"a"⟩, none⟩],
          []⟩).inputs =
      [⟨"u", 0, none⟩, ⟨"u", 0, none⟩] :=
  ⟨by decide, by decide⟩

/-- C6 amended: the program's transaction verification performs no
duplicate-input-reference check (DoubleSpendException is defined but never
raised); a transaction in which two distinct input positions reference the
same UTXO key still verifies successfully whenever every input index carries
the correct signature and the lookup yields the signing secret. -/
theorem claim_C6_amended_no_double_spend_check :
    ∀ (H Hd : String → String) (secret : String) (tx : Transaction)
      (key_lookup : TxIn → Option String) (i j : Nat),
      i < tx.inputs.length → j < tx.inputs.length → i ≠ j →
      (tx.inputs.get? i).map TxIn.reference_key =
        (tx.inputs.get? j).map TxIn.reference_key →
      (∀ inp ∈ tx.inputs, key_lookup inp = some secret) →
      TransactionService.verify_transaction H Hd
        (TransactionService.sign_transaction H Hd secret tx) key_lookup =
        true := by
  intro H Hd secret tx key_lookup i j hi hj hij hdup hl
  unfold TransactionService.verify_transaction Transaction.verify
  rw [sign_transaction_eq]
  refine verifyFrom_all_good Hd _ key_lookup _ secret tx.inputs 0 ?_ hl
  intro m hm
  simpa using natLookup_range_foldl (Hd (secret ++ tx.calculate_hash H))
    tx.inputs.length tx.signatures m hm

/-- Witness for the amended C6 at a concrete duplicate-input transaction. -/
theorem claim_C6_amended_witness :
    TransactionService.verify_transaction (fun s => "h" ++ s) (fun s => "d" ++ s)
      (TransactionService.sign_transaction (fun s => "h" ++ s)
        (fun s => "d" ++ s) "k"
        ⟨some "t2", [⟨"w", 1, none⟩, ⟨"w", 1, none⟩], [⟨2, ⟨"b"⟩, none⟩], []⟩)
      (fun _ => some "k") = true :=
  claim_C6_amended_no_double_spend_check (fun s => "h" ++ s) (fun s => "d" ++ s)
    "k" ⟨some "t2", [⟨"w", 1, none⟩, ⟨"w", 1, none⟩], [⟨2, ⟨"b"⟩, none⟩], []⟩
    (fun _ => some "k") 0 1 (by decide) (by decide) (by decide) (by decide)
    (by decide)

/-! ## Coin-selection lemmas and claim C5 -/

theorem sumU_nonneg {l : List UTXO} (h : ∀ u ∈ l, 0 ≤ u.amount) : 0 ≤ sumU l := by
  induction l with
  | nil => simp [sumU]
  | cons u rest ih =>
    have h1 := h u (by simp)
    have h2 : 0 ≤ sumU rest := ih (fun v hv => h v (by simp [hv]))
    simp only [sumU]
    linarith

theorem greedyCollect_exhaust (required : ℚ) :
    ∀ (l : List UTXO) (t : ℚ), (greedyCollect required l t).2 < required →
      (greedyCollect required l t).1 = l.map utxoToTxIn ∧
      (greedyCollect required l t).2 = t + sumU l := by
  intro l
  induction l with
  | nil =>
    intro t _
    exact ⟨rfl, by simp [greedyCollect, sumU]⟩
  | cons u rest ih =>
    intro t h
    by_cases hb : required ≤ t + u.amount
    · exfalso
      simp only [greedyCollect] at h
      rw [if_pos hb] at h
      exact absurd h (by simp; linarith)
    · simp only [greedyCollect] at h ⊢
      rw [if_neg hb] at h ⊢
      simp only at h
      obtain ⟨h1, h2⟩ := ih (t + u.amount) h
      refine ⟨by simp [h1, utxoToTxIn], ?_⟩
      simp only [h2, sumU, List.map_cons]
      ring

theorem greedyCollect_nobreak (required : ℚ) :
    ∀ (l : List UTXO) (t : ℚ), (∀ u ∈ l, 0 ≤ u.amount) →
      t + sumU l < required →
      greedyCollect required l t = (l.map utxoToTxIn, t + sumU l) := by
  intro l
  induction l with
  | nil =>
    intro t _ _
    simp [greedyCollect, sumU]
  | cons u rest ih =>
    intro t hn hlt
    have hr : ∀ v ∈ rest, 0 ≤ v.amount := fun v hv => hn v (by simp [hv])
    have hsr : 0 ≤ sumU rest := sumU_nonneg hr
    simp only [sumU] at hlt
    have hnb : ¬required ≤ t + u.amount := not_le.mpr (by linarith)
    simp only [greedyCollect]
    rw [if_neg hnb, ih (t + u.amount) hr (by linarith)]
    have e : t + u.amount + sumU rest = t + (u.amount + sumU rest) := by ring
    simp only [sumU, List.map_cons, e, utxoToTxIn]

theorem greedyCollect_success (required : ℚ) :
    ∀ (l : List UTXO) (t : ℚ), t < required →
      required ≤ (greedyCollect required l t).2 →
      ∃ p q, l = p ++ q ∧ p ≠ [] ∧
        (greedyCollect required l t).1 = p.map utxoToTxIn ∧
        (greedyCollect required l t).2 = t + sumU p ∧
        ∀ k, k < p.length → t + sumU (p.take k) < required := by
  intro l
  induction l with
  | nil =>
    intro t ht hreq
    simp only [greedyCollect] at hreq
    exact absurd hreq (not_le.mpr ht)
  | cons u rest ih =>
    intro t ht hreq
    by_cases hb : required ≤ t + u.amount
    · refine ⟨[u], rest, rfl, by simp, ?_, ?_, ?_⟩
      · simp [greedyCollect, hb, utxoToTxIn]
      · simp only [greedyCollect]
        rw [if_pos hb]
        simp only [sumU]
        ring
      · intro k hk
        have hk0 : k = 0 := by simpa using hk
        subst hk0
        simpa [sumU] using ht
    · have ht2 : t + u.amount < required := not_le.mp hb
      have hrec : required ≤ (greedyCollect required rest (t + u.amount)).2 := by
        simp only [greedyCollect] at hreq
        rw [if_neg hb] at hreq
        simpa using hreq
      obtain ⟨p, q, hl, hpne, h1, h2, h3⟩ := ih (t + u.amount) ht2 hrec
      refine ⟨u :: p, q, by rw [hl]; rfl, by simp, ?_, ?_, ?_⟩
      · simp only [greedyCollect]
        rw [if_neg hb]
        simp [h1, utxoToTxIn]
      · simp only [greedyCollect]
        rw [if_neg hb]
        simp only [h2, sumU]
        ring
      · intro k hk
        cases k with
        | zero =>
          simpa [sumU] using ht
        | succ k2 =>
          have hk2 : k2 < p.length := by simpa using hk
          have hstep := h3 k2 hk2
          rw [List.take_succ_cons]
          simp only [sumU]
          linarith

theorem create_transaction_empty (H : String → String)
    (repo : InMemoryLedgerRepository) (addr : Address) (outputs : List TxOut)
    (h : senderUtxos repo addr = []) :
    TransactionService.create_transaction H repo addr outputs =
      Except.error ⟨addr, sumOutputs outputs, 0⟩ := by
  simp [TransactionService.create_transaction, h]

theorem create_transaction_short (H : String → String)
    (repo : InMemoryLedgerRepository) (addr : Address) (outputs : List TxOut)
    (hne : senderUtxos repo addr ≠ [])
    (hnn : ∀ u ∈ senderUtxos repo addr, 0 ≤ u.amount)
    (hlt : sumU (senderUtxos repo addr) < sumOutputs outputs) :
    TransactionService.create_transaction H repo addr outputs =
      Except.error ⟨addr, sumOutputs outputs, sumU (senderUtxos repo addr)⟩ := by
  have hg := greedyCollect_nobreak (sumOutputs outputs) (senderUtxos repo addr) 0
    hnn (by linarith)
  simp only [TransactionService.create_transaction]
  rw [if_neg (by simpa [List.isEmpty_iff] using hne), hg]
  rw [if_pos (by simpa using hlt)]
  simp

theorem create_transaction_ok (H : String → String)
    (repo : InMemoryLedgerRepository) (addr : Address) (outputs : List TxOut)
    (hne : senderUtxos repo addr ≠ [])
    (hge : ¬(greedyCollect (sumOutputs outputs) (senderUtxos repo addr) 0).2 <
      sumOutputs outputs) :
    TransactionService.create_transaction H repo addr outputs =
      Except.ok
        ⟨some (Transaction.calculate_hash H
            ⟨none, (greedyCollect (sumOutputs outputs) (senderUtxos repo addr) 0).1,
              outputs, []⟩),
          (greedyCollect (sumOutputs outputs) (senderUtxos repo addr) 0).1,
          outputs, []⟩ := by
  simp only [TransactionService.create_transaction]
  rw [if_neg (by simpa [List.isEmpty_iff] using hne), if_neg hge]

/-- C5: `create_transaction` fails with the insufficient-funds payload
(address, required = sum of requested outputs, available) exactly when the
sender has no live UTXOs (available 0) or the total of all the sender's UTXOs
is below the requirement (available = that total); on success its inputs are
the sender's UTXOs in store-iteration order, greedily accumulated — a minimal
non-empty prefix whose running total first reaches the requirement.
Amounts are non-negative per the data model (§3: TxOut amounts must be
non-negative), which the hypothesis records. -/
theorem claim_C5_create_transaction_funds :
    ∀ (H : String → String) (repo : InMemoryLedgerRepository) (addr : Address)
      (outputs : List TxOut),
      (∀ u ∈ senderUtxos repo addr, 0 ≤ u.amount) →
      (∀ e, TransactionService.create_transaction H repo addr outputs =
          Except.error e ↔
          (senderUtxos repo addr = [] ∧ e = ⟨addr, sumOutputs outputs, 0⟩) ∨
          (senderUtxos repo addr ≠ [] ∧
            sumU (senderUtxos repo addr) < sumOutputs outputs ∧
            e = ⟨addr, sumOutputs outputs, sumU (senderUtxos repo addr)⟩)) ∧
      (∀ tx, TransactionService.create_transaction H repo addr outputs =
          Except.ok tx →
          ∃ p q, senderUtxos repo addr = p ++ q ∧ p ≠ [] ∧
            tx.inputs = p.map utxoToTxIn ∧
            (0 < sumOutputs outputs →
              sumOutputs outputs ≤ sumU p ∧
              ∀ k, k < p.length → sumU (p.take k) < sumOutputs outputs)) := by
  intro H repo addr outputs hnn
  by_cases hemp : senderUtxos repo addr = []
  · constructor
    · intro e
      rw [create_transaction_empty H repo addr outputs hemp]
      constructor
      · intro he
        injection he with he2
        exact Or.inl ⟨hemp, he2.symm⟩
      · rintro (⟨_, he⟩ | ⟨hne, _, _⟩)
        · rw [he]
        · exact absurd hemp hne
    · intro tx htx
      rw [create_transaction_empty H repo addr outputs hemp] at htx
      cases htx
  · by_cases hc : (greedyCollect (sumOutputs outputs) (senderUtxos repo addr) 0).2 <
        sumOutputs outputs
    · have hx := greedyCollect_exhaust (sumOutputs outputs)
        (senderUtxos repo addr) 0 hc
      have hlt : sumU (senderUtxos repo addr) < sumOutputs outputs := by
        have := hx.2
        rw [this] at hc
        linarith
      constructor
      · intro e
        rw [create_transaction_short H repo addr outputs hemp hnn hlt]
        constructor
        · intro he
          injection he with he2
          exact Or.inr ⟨hemp, hlt, he2.symm⟩
        · rintro (⟨hnil, _⟩ | ⟨_, _, he⟩)
          · exact absurd hnil hemp
          · rw [he]
      · intro tx htx
        rw [create_transaction_short H repo addr outputs hemp hnn hlt] at htx
        cases htx
    · constructor
      · intro e
        rw [create_transaction_ok H repo addr outputs hemp hc]
        constructor
        · intro he
          cases he
        · rintro (⟨hnil, _⟩ | ⟨_, hlt, _⟩)
          · exact absurd hnil hemp
          · exfalso
            have := greedyCollect_nobreak (sumOutputs outputs)
              (senderUtxos repo addr) 0 hnn (by linarith)
            rw [this] at hc
            exact hc (by simpa using hlt)
      · intro tx htx
        rw [create_transaction_ok H repo addr outputs hemp hc] at htx
        injection htx with htx2
        by_cases hpos : 0 < sumOutputs outputs
        · obtain ⟨p, q, hl, hpne, h1, h2, h3⟩ := greedyCollect_success
            (sumOutputs outputs) (senderUtxos repo addr) 0 hpos (not_lt.mp hc)
          refine ⟨p, q, hl, hpne, ?_, ?_⟩
          · rw [← htx2]
            exact h1
          · intro _
            constructor
            · have := not_lt.mp hc
              rw [h2] at this
              linarith
            · intro k hk
              have := h3 k hk
              linarith
        · obtain ⟨u, rest, hur⟩ : ∃ u rest, senderUtxos repo addr = u :: rest := by
            cases hu : senderUtxos repo addr with
            | nil => exact absurd hu hemp
            | cons a as => exact ⟨a, as, rfl⟩
          have hu0 : 0 ≤ u.amount := hnn u (by rw [hur]; simp)
          have hb : sumOutputs outputs ≤ u.amount := by
            push_neg at hpos
            linarith
          refine ⟨[u], rest, hur, by simp, ?_, fun hp => absurd hp hpos⟩
          rw [← htx2, hur]
          simp [greedyCollect, hb, utxoToTxIn]

/-- Witness for C5 at the spec's insufficient-funds scenario: an address with
zero UTXOs requesting a positive amount fails with `available == 0`. -/
theorem claim_C5_witness :
    TransactionService.create_transaction (fun s => s) ⟨[], []⟩ ⟨"a"⟩
        [⟨5, ⟨"b"⟩, none⟩] =
      Except.error ⟨⟨"a"⟩, 5, 0⟩ :=
  ((claim_C5_create_transaction_funds (fun s => s) ⟨[], []⟩ ⟨"a"⟩
      [⟨5, ⟨"b"⟩, none⟩] (by decide)).1 ⟨⟨"a"⟩, 5, 0⟩).mpr
    (Or.inl ⟨by decide, by simp [sumOutputs]⟩)

/-! ## Mining lemmas and claims C1, C7 -/

theorem string_append_left_ne (s a b : String) (h : a ≠ b) :
    s ++ a ≠ s ++ b := by
  intro e
  apply h
  cases s with
  | mk sd =>
    cases a with
    | mk ad =>
      cases b with
      | mk bd =>
        have e2 : sd ++ ad = sd ++ bd := congrArg String.data e
        exact congrArg String.mk (List.append_cancel_left e2)

theorem key_index_zero (t : String) : t ++ ":" ++ toString (0 : Nat) = t ++ ":0" := by
  rw [String.append_assoc]
  rfl

theorem key_index_one (t : String) : t ++ ":" ++ toString (1 : Nat) = t ++ ":1" := by
  rw [String.append_assoc]
  rfl

theorem alistLookup_append_left_none {V : Type} {l1 : List (String × V)}
    (l2 : List (String × V)) {k : String} (h : alistLookup l1 k = none) :
    alistLookup (l1 ++ l2) k = alistLookup l2 k := by
  induction l1 with
  | nil => rfl
  | cons p rest ih =>
    simp only [alistLookup, List.cons_append] at h ⊢
    by_cases hp : p.1 = k
    · rw [if_pos hp] at h
      cases h
    · rw [if_neg hp] at h ⊢
      exact ih h

theorem foldl_remove_utxo_eq (inps : List TxIn) :
    ∀ r : InMemoryLedgerRepository,
      inps.foldl (fun r2 inp => r2.remove_utxo inp.reference_key) r =
        ⟨r.blocks,
          inps.foldl (fun s inp => alistRemove s inp.reference_key) r.utxo_set⟩ := by
  induction inps with
  | nil =>
    intro r
    cases r
    rfl
  | cons i rest ih =>
    intro r
    simp only [List.foldl_cons]
    rw [ih]
    rfl

theorem foldl_add_utxo_eq (tid : String) (outs : List (Nat × TxOut)) :
    ∀ r : InMemoryLedgerRepository,
      outs.foldl
          (fun r2 p => r2.add_utxo ⟨tid, p.1, p.2.amount, p.2.address, none⟩) r =
        ⟨r.blocks,
          outs.foldl
            (fun s p => alistInsert s (tid ++ ":" ++ toString p.1)
              ⟨tid, p.1, p.2.amount, p.2.address, none⟩) r.utxo_set⟩ := by
  induction outs with
  | nil =>
    intro r
    cases r
    rfl
  | cons o rest ih =>
    intro r
    simp only [List.foldl_cons]
    rw [ih]
    rfl

theorem applyTxUtxos_eq (r : InMemoryLedgerRepository) (tx : Transaction) :
    applyTxUtxos r tx = ⟨r.blocks, txUtxoDelta tx r.utxo_set⟩ := by
  simp only [applyTxUtxos, txUtxoDelta]
  rw [foldl_remove_utxo_eq, foldl_add_utxo_eq]

theorem foldl_applyTx_eq (txs : List Transaction) :
    ∀ r : InMemoryLedgerRepository,
      txs.foldl applyTxUtxos r =
        ⟨r.blocks, txs.foldl (fun us tx => txUtxoDelta tx us) r.utxo_set⟩ := by
  induction txs with
  | nil =>
    intro r
    cases r
    rfl
  | cons t rest ih =>
    intro r
    simp only [List.foldl_cons]
    rw [applyTxUtxos_eq, ih]

theorem mine_block_some (H : String → String) (d : Int) (fuel : Nat)
    (repo repo2 : InMemoryLedgerRepository) (txs : List Transaction)
    (validator : String) (ts : Int) (blk : Block)
    (h : MiningService.mine_block H d fuel repo txs validator ts =
      some (repo2, blk)) :
    blk.transactions = txs ∧
    blk.header.prev_hash = minePrevHash H repo ∧
    repo2.blocks = repo.blocks ++ [blk] ∧
    repo2.utxo_set =
      txs.foldl (fun us tx => txUtxoDelta tx us) repo.utxo_set := by
  unfold MiningService.mine_block at h
  cases hm : ProofOfWorkAdapter.mine H d
      (mineCandidateHeader H d repo txs validator ts) fuel with
  | none =>
    rw [hm] at h
    cases h
  | some pr =>
    obtain ⟨sealed, dig⟩ := pr
    rw [hm] at h
    simp only at h
    injection h with h2
    injection h2 with hrepo hblk
    obtain ⟨n, hmf, hsh⟩ := pow_mine_shape H d _ fuel sealed dig hm
    subst hblk
    refine ⟨rfl, ?_, ?_, ?_⟩
    · show sealed.prev_hash = minePrevHash H repo
      rw [hsh]
      rfl
    · rw [← hrepo, foldl_applyTx_eq]
      rfl
    · rw [← hrepo, foldl_applyTx_eq]
      rfl

/-- C7: `mine_block` links the new block to the chain tip — the sealed
header's `prev_hash` is the hash of the store's latest block's header when one
exists and the zero-filled placeholder only when the store is empty; in
particular, mining over a one-block store uses the hash of that first block's
header. -/
theorem claim_C7_chain_linkage :
    ∀ (H : String → String) (d : Int) (fuel : Nat)
      (repo repo2 : InMemoryLedgerRepository) (txs : List Transaction)
      (validator : String) (ts : Int) (blk : Block),
      MiningService.mine_block H d fuel repo txs validator ts =
        some (repo2, blk) →
      blk.header.prev_hash =
        (match repo.blocks.getLast? with
          | some prev => BlockHeader.calculate_hash H prev.header
          | none => zeroPrevHash) ∧
      (∀ b1, repo.blocks = [b1] →
        blk.header.prev_hash = BlockHeader.calculate_hash H b1.header) := by
  intro H d fuel repo repo2 txs validator ts blk h
  obtain ⟨-, hprev, -, -⟩ := mine_block_some H d fuel repo repo2 txs validator
    ts blk h
  constructor
  · rw [hprev]
    rfl
  · intro b1 hb
    rw [hprev]
    simp [minePrevHash, InMemoryLedgerRepository.get_latest_block, hb,
      BlockHeader.calculate_hash]

/-- C1: whenever `mine_block` returns, the resulting UTXO set is the in-order
per-transaction fold that removes each input's referenced key and adds one
UTXO per output keyed by the transaction id and output position; and in the
concrete conservation scenario — one transaction spending a live UTXO `U` of
amount 100 into fresh outputs of 60 and 40 — `U`'s key is gone and exactly the
two new UTXOs (amounts 60 and 40, respective owners) were added. -/
theorem claim_C1_mine_block_utxo_effects :
    (∀ (H : String → String) (d : Int) (fuel : Nat)
       (repo repo2 : InMemoryLedgerRepository) (txs : List Transaction)
       (validator : String) (ts : Int) (blk : Block),
       MiningService.mine_block H d fuel repo txs validator ts =
         some (repo2, blk) →
       repo2.utxo_set =
         txs.foldl (fun us tx => txUtxoDelta tx us) repo.utxo_set) ∧
    (∀ (H : String → String) (d : Int) (fuel : Nat)
       (repo repo2 : InMemoryLedgerRepository) (validator : String) (ts : Int)
       (blk : Block) (U : UTXO) (inp : TxIn) (t : String) (a1 a2 : Address)
       (sigs : List (Nat × String)),
       inp.reference_key = utxoKey U →
       U.amount = 100 →
       alistLookup repo.utxo_set (utxoKey U) = some U →
       alistLookup repo.utxo_set (t ++ ":0") = none →
       alistLookup repo.utxo_set (t ++ ":1") = none →
       MiningService.mine_block H d fuel repo
           [⟨some t, [inp], [⟨60, a1, none⟩, ⟨40, a2, none⟩], sigs⟩]
           validator ts =
         some (repo2, blk) →
       alistLookup repo2.utxo_set (utxoKey U) = none ∧
       repo2.get_utxo t 0 = some ⟨t, 0, 60, a1, none⟩ ∧
       repo2.get_utxo t 1 = some ⟨t, 1, 40, a2, none⟩ ∧
       repo2.utxo_set =
         alistRemove repo.utxo_set (utxoKey U) ++
           [(t ++ ":0", ⟨t, 0, 60, a1, none⟩),
            (t ++ ":1", ⟨t, 1, 40, a2, none⟩)]) := by
  constructor
  · intro H d fuel repo repo2 txs validator ts blk h
    exact (mine_block_some H d fuel repo repo2 txs validator ts blk h).2.2.2
  · intro H d fuel repo repo2 validator ts blk U inp t a1 a2 sigs hkey hamt h0
      hf0 hf1 hmine
    obtain ⟨-, -, -, hut⟩ := mine_block_some H d fuel repo repo2 _ validator
      ts blk hmine
    have hne0 : utxoKey U ≠ t ++ ":0" := by
      intro e
      rw [← e] at hf0
      rw [h0] at hf0
      cases hf0
    have hne1 : utxoKey U ≠ t ++ ":1" := by
      intro e
      rw [← e] at hf1
      rw [h0] at hf1
      cases hf1
    have hk01 : t ++ ":0" ≠ t ++ ":1" :=
      string_append_left_ne t ":0" ":1" (by decide)
    have hdelta : repo2.utxo_set =
        alistInsert
          (alistInsert (alistRemove repo.utxo_set (utxoKey U)) (t ++ ":0")
            ⟨t, 0, 60, a1, none⟩)
          (t ++ ":1") ⟨t, 1, 40, a2, none⟩ := by
      rw [hut]
      simp only [List.foldl_cons, List.foldl_nil, txUtxoDelta, List.enum,
        List.enumFrom, pyOptStr, hkey]
      rw [key_index_zero, key_index_one]
    have hrm0 : alistLookup (alistRemove repo.utxo_set (utxoKey U))
        (t ++ ":0") = none := by
      rw [alistLookup_remove]
      rw [if_neg (fun e => hne0 e.symm)]
      exact hf0
    have hrm1 : alistLookup (alistRemove repo.utxo_set (utxoKey U))
        (t ++ ":1") = none := by
      rw [alistLookup_remove]
      rw [if_neg (fun e => hne1 e.symm)]
      exact hf1
    refine ⟨?_, ?_, ?_, ?_⟩
    · rw [hdelta, alistLookup_insert_ne _ _ _ _ hne1,
        alistLookup_insert_ne _ _ _ _ hne0, alistLookup_remove, if_pos rfl]
    · show alistLookup repo2.utxo_set (t ++ ":" ++ toString (0 : Nat)) =
        some ⟨t, 0, 60, a1, none⟩
      rw [key_index_zero, hdelta,
        alistLookup_insert_ne _ _ _ _ hk01, alistLookup_insert_self]
    · show alistLookup repo2.utxo_set (t ++ ":" ++ toString (1 : Nat)) =
        some ⟨t, 1, 40, a2, none⟩
      rw [key_index_one, hdelta, alistLookup_insert_self]
    · rw [hdelta, alistInsert_fresh _ hrm0]
      have hfresh1 : alistLookup
          (alistRemove repo.utxo_set (utxoKey U) ++
            [(t ++ ":0", (⟨t, 0, 60, a1, none⟩ : UTXO))]) (t ++ ":1") = none := by
        rw [alistLookup_append_left_none _ hrm1]
        simp [alistLookup, hk01]
      rw [alistInsert_fresh _ hfresh1]
      simp

/-- Witness for C1's conservation scenario with a concrete store, spend
transaction and constant hash function. -/
theorem claim_C1_witness :
    alistLookup wRepo2.utxo_set (utxoKey wUtxo) = none ∧
    wRepo2.get_utxo "t" 0 = some ⟨"t", 0, 60, ⟨"p"⟩, none⟩ ∧
    wRepo2.get_utxo "t" 1 = some ⟨"t", 1, 40, ⟨"q"⟩, none⟩ ∧
    wRepo2.utxo_set =
      alistRemove wRepo.utxo_set (utxoKey wUtxo) ++
        [("t" ++ ":0", ⟨"t", 0, 60, ⟨"p"⟩, none⟩),
         ("t" ++ ":1", ⟨"t", 1, 40, ⟨"q"⟩, none⟩)] :=
  claim_C1_mine_block_utxo_effects.2 (fun _ => "0") 1 1 wRepo wRepo2 "v" 0
    wBlock wUtxo ⟨"g", 0, none⟩ "t" ⟨"p"⟩ ⟨"q"⟩ [] (by decide) (by decide)
    (by decide) (by decide) (by decide) (by decide)

/-- Witness for C7's chain-linkage scenario: the second block's `prev_hash` is
the hash of the first block's header. -/
theorem claim_C7_witness :
    wBlockTwo.header.prev_hash =
      BlockHeader.calculate_hash (fun _ => "0") wBlockOne.header :=
  (claim_C7_chain_linkage (fun _ => "0") 1 1 wRepoOne
      ⟨[wBlockOne, wBlockTwo], []⟩ [] "v" 9 wBlockTwo (by decide)).2 wBlockOne
    (by decide)

end CryptoSim
